import Mathlib

set_option maxHeartbeats 1000000

/-!
Shallow embedding of `preprocess_aria.py`: a pipeline that discovers MIDI
files under a root directory, deduplicates them by the MD5 digest of their
first 8192 bytes, joins each surviving file with a metadata record looked up
by a key derived from the filename, and emits rows whose key set is the
precomputed schema key set.

External effects are modelled as explicit parameters:
* the filesystem is `fs : String → Option (List Nat)`, where `fs p = some bs`
  means reading file `p` yields the byte list `bs`, and `none` means the read
  raises (permission error, missing file, I/O error);
* `md5 : List Nat → String` models `hashlib.md5(...).hexdigest()` as an
  arbitrary function from byte lists to digest strings;
* `dumps : Val → String` models `json.dumps`;
* the lazy sequence produced by `find_midi_files(base_directory)` (a
  filesystem traversal) is modelled by the list of paths it yields, in
  traversal order.
-/

/-- Python values flowing through the pipeline: JSON-style values plus the
raw bytes attached under the `"file"` attribute.  Dictionaries are
association lists. -/
inductive Val where
  | null
  | bool (b : Bool)
  | int (n : Int)
  | str (s : String)
  | bytes (bs : List Nat)
  | arr (elems : List Val)
  | obj (fields : List (String × Val))

/-- Python `d.get(k)` / `d[k]` on an association-list dictionary: the first
entry whose key equals `k` (Python dicts have unique keys, so at most one
entry matches). -/
def dictGet {α : Type} (d : List (String × α)) (k : String) : Option α :=
  (d.find? (fun kv => kv.1 == k)).map (fun kv => kv.2)

/-- Python `d[k] = v`: overwrite the entry for `k` when present, otherwise
append a new entry at the end (Python dicts preserve insertion order). -/
def dictSet {α : Type} (d : List (String × α)) (k : String) (v : α) : List (String × α) :=
  if d.any (fun kv => kv.1 == k) then
    d.map (fun kv => if kv.1 == k then (k, v) else kv)
  else d ++ [(k, v)]

/-- `CHUNK_SIZE = 8 * 1024` from the source. -/
def CHUNK_SIZE : Nat := 8 * 1024

/-- `compute_hash`: MD5 hex digest of `f.read(CHUNK_SIZE)`, i.e. of the first
`min CHUNK_SIZE size` bytes of the file, or `None` when opening/reading the
file raises (the exception is caught and logged, never propagated). -/
def compute_hash (md5 : List Nat → String) (fs : String → Option (List Nat))
    (file_path : String) : Option String :=
  match fs file_path with
  | none => none
  | some bs => some (md5 (bs.take CHUNK_SIZE))

/-- Loop of `deduplicate_files`, with the mutable `used_hashes` set made
explicit as the `used` accumulator. -/
def deduplicate_files_aux (hash : String → Option String) :
    List String → List String → List String
  | _, [] => []
  | used, file_path :: rest =>
    match hash file_path with
    | none => deduplicate_files_aux hash used rest
    | some h =>
      if h ∈ used then deduplicate_files_aux hash used rest
      else file_path :: deduplicate_files_aux hash (h :: used) rest

/-- `deduplicate_files`: consume the path sequence, compute each path's MD5
fingerprint via `compute_hash`, and yield only paths whose fingerprint is
non-error and not previously seen; `used_hashes` starts empty on every
invocation. -/
def deduplicate_files (md5 : List Nat → String) (fs : String → Option (List Nat))
    (files : List String) : List String :=
  deduplicate_files_aux (compute_hash md5 fs) [] files

/-- The value of the `used_hashes` set after the `deduplicate_files` loop has
consumed a list of paths, starting from `used`. -/
def usedAfter (hash : String → Option String) :
    List String → List String → List String
  | used, [] => used
  | used, file_path :: rest =>
    match hash file_path with
    | none => usedAfter hash used rest
    | some h =>
      if h ∈ used then usedAfter hash used rest
      else usedAfter hash (h :: used) rest

/-- The fingerprinted portion of a file: its first `CHUNK_SIZE` bytes, or
`none` when the file cannot be read. -/
def prefixBytes (fs : String → Option (List Nat)) (file_path : String) : Option (List Nat) :=
  (fs file_path).map (fun bs => bs.take CHUNK_SIZE)

/-- `os.path.basename`: the portion of a POSIX path after the last `'/'`. -/
def basename (p : String) : String :=
  ((p.toList.reverse.takeWhile (fun c => c != '/')).reverse).asString

/-- `basename(p).split("_")[0]`: the characters of the basename before the
first underscore. -/
def keySegment (p : String) : List Char :=
  (basename p).toList.takeWhile (fun c => c != '_')

/-- `os.path.basename(file_path).split("_")[0].lstrip("0")`: the record key
derived from a path. -/
def deriveKey (p : String) : String :=
  ((keySegment p).dropWhile (fun c => c == '0')).asString

/-- One entry of the `metadata.json` mapping: an object with a nested
`"metadata"` dictionary and an `"audio_scores"` field. -/
structure MetaRecord where
  metadata : List (String × Val)
  audio_scores : Val

/-- The row built by the body of `grab_metadata` for a matched record and the
bytes of its file: a deep copy of the record's nested metadata (values are
immutable in this model, so the copy is the value itself) with the serialized
scoring data stored under `"audio_scores"` and the raw bytes under `"file"`. -/
def joinRow (dumps : Val → String) (r : MetaRecord) (midi_bytes : List Nat) :
    List (String × Val) :=
  dictSet (dictSet r.metadata "audio_scores" (Val.str (dumps r.audio_scores)))
    "file" (Val.bytes midi_bytes)

/-- The body of the `grab_metadata` loop for a single path: skip the path when
its derived key is empty, when the key is absent from the metadata mapping, or
when reading the file raises; otherwise yield exactly the joined row. -/
def grabStep (dumps : Val → String) (fs : String → Option (List Nat))
    (metadata : List (String × MetaRecord)) (file_path : String) :
    List (List (String × Val)) :=
  if deriveKey file_path = "" then []
  else
    match dictGet metadata (deriveKey file_path) with
    | none => []
    | some r =>
      match fs file_path with
      | none => []
      | some midi_bytes => [joinRow dumps r midi_bytes]

/-- `grab_metadata`: run the loop body over every consumed path, in order. -/
def grab_metadata (dumps : Val → String) (fs : String → Option (List Nat))
    (metadata : List (String × MetaRecord)) (files : List String) :
    List (List (String × Val)) :=
  files.flatMap (grabStep dumps fs metadata)

/-- The schema key set computed in `main` before any row is emitted: the keys
of every record's nested `"metadata"` dictionary, over all records of the
mapping, plus `"audio_scores"` and `"file"` (a Python `set`; modelled as a
duplicate-free list built by repeated insertion). -/
def schemaKeysList (metadata : List (String × MetaRecord)) : List String :=
  (((metadata.foldl
        (fun acc kr => kr.2.metadata.foldl (fun acc2 kv => acc2.insert kv.1) acc)
        []).insert "audio_scores").insert "file")

/-- The dict comprehension in `row_generator`:
`{key: song_metadata.get(key, None) for key in metadata_keys}`. -/
def buildRow (metadata_keys : List String) (song_metadata : List (String × Val)) :
    List (String × Val) :=
  metadata_keys.map (fun k => (k, (dictGet song_metadata k).getD Val.null))

/-- `row_generator`: chain discovery, deduplication and the metadata join, and
emit one fixed-schema row per joined record.  `discovered` is the path list
produced by `find_midi_files(base_directory)`. -/
def row_generator (md5 : List Nat → String) (dumps : Val → String)
    (fs : String → Option (List Nat)) (discovered : List String)
    (metadata : List (String × MetaRecord)) (metadata_keys : List String) :
    List (List (String × Val)) :=
  (grab_metadata dumps fs metadata (deduplicate_files md5 fs discovered)).map
    (buildRow metadata_keys)

/-- The fatal errors `main` can raise before the pipeline runs. -/
inductive PipelineError where
  | directoryNotFound
  | notADirectory
  | missingToken
  | metadataUnreadable
deriving DecidableEq

/-- `main`: check that the base directory exists and is a directory, log in
(fails when no token is configured), load `metadata.json` (fails when it
cannot be read), compute the schema key set, then build the table via
`row_generator`.  `pathExists` and `isDirectory` model `os.path.exists` and
`os.path.isdir`; `hf_token` models the `HF_TOKEN` environment variable;
`metadata_file` models the parsed content of `metadata.json`, `none` when the
file is missing or unreadable. -/
def main_run (pathExists isDirectory : String → Bool) (hf_token : Option String)
    (metadata_file : Option (List (String × MetaRecord)))
    (md5 : List Nat → String) (dumps : Val → String)
    (fs : String → Option (List Nat)) (discovered : List String)
    (base_directory : String) :
    Except PipelineError (List (List (String × Val))) :=
  if pathExists base_directory = false then Except.error PipelineError.directoryNotFound
  else if isDirectory base_directory = false then Except.error PipelineError.notADirectory
  else
    match hf_token with
    | none => Except.error PipelineError.missingToken
    | some _ =>
      match metadata_file with
      | none => Except.error PipelineError.metadataUnreadable
      | some metadata =>
        Except.ok (row_generator md5 dumps fs discovered metadata (schemaKeysList metadata))

/-- A reference to a metadata record whose nested `"metadata"` dictionary
lives in a mutable store, for the aliasing model of the join step. -/
structure RecordRef where
  metaAddr : Nat
  audio_scores : Val

/-- A store of mutable dictionaries: `mem a` is the dictionary at address `a`,
`next` the next fresh address (every allocated address is `< next`). -/
structure Heap where
  mem : Nat → List (String × Val)
  next : Nat

/-- Allocate a fresh dictionary initialized with `d`; returns the new store
and the fresh address. -/
def halloc (h : Heap) (d : List (String × Val)) : Heap × Nat :=
  ({ mem := fun a => if a = h.next then d else h.mem a, next := h.next + 1 }, h.next)

/-- In-place dictionary assignment `store[a][k] = v`. -/
def hset (h : Heap) (a : Nat) (k : String) (v : Val) : Heap :=
  { mem := fun a2 => if a2 = a then dictSet (h.mem a2) k v else h.mem a2, next := h.next }

/-- The store effect of the body of `grab_metadata` on a matched record:
`deepcopy` the record's nested metadata dictionary to a fresh address, then
perform the two in-place attribute assignments on that fresh address.  The
fresh address (the yielded row) is `h.next`. -/
def joinAlloc (dumps : Val → String) (h : Heap) (r : RecordRef) (midi_bytes : List Nat) :
    Heap :=
  hset
    (hset (halloc h (h.mem r.metaAddr)).1 (halloc h (h.mem r.metaAddr)).2 "audio_scores"
      (Val.str (dumps r.audio_scores)))
    (halloc h (h.mem r.metaAddr)).2 "file" (Val.bytes midi_bytes)

/-- `grab_metadata` with the aliasing of Python objects made explicit: each
matched record's nested metadata dictionary lives at an address in a store;
`deepcopy` copies it to a fresh address, and the two attribute assignments
mutate that fresh address.  Returns the final store and, in order, the
addresses of the rows that were yielded. -/
def grab_metadata_heap (dumps : Val → String) (fs : String → Option (List Nat))
    (metadata : List (String × RecordRef)) : Heap → List String → Heap × List Nat
  | h, [] => (h, [])
  | h, file_path :: rest =>
    if deriveKey file_path = "" then grab_metadata_heap dumps fs metadata h rest
    else
      match dictGet metadata (deriveKey file_path) with
      | none => grab_metadata_heap dumps fs metadata h rest
      | some r =>
        match fs file_path with
        | none => grab_metadata_heap dumps fs metadata h rest
        | some midi_bytes =>
          let res :=
            grab_metadata_heap dumps fs metadata (joinAlloc dumps h r midi_bytes) rest
          (res.1, h.next :: res.2)

/-- Read a record reference back as a pure record in a given store. -/
def derefRecord (h : Heap) (kr : String × RecordRef) : String × MetaRecord :=
  (kr.1, { metadata := h.mem kr.2.metaAddr, audio_scores := kr.2.audio_scores })

/-- Modelled from the spec: section 4.5 says the Table Builder "optionally
accepts a row-count limit, after which it stops consuming further input".
No such parameter exists anywhere in the source (`row_generator` takes only
`base_directory`, `metadata` and `metadata_keys`), so this definition follows
the spec's words, for comparison with the source's `row_generator`. -/
def row_generator_with_limit (limit : Option Nat) (md5 : List Nat → String)
    (dumps : Val → String) (fs : String → Option (List Nat)) (discovered : List String)
    (metadata : List (String × MetaRecord)) (metadata_keys : List String) :
    List (List (String × Val)) :=
  match limit with
  | none => row_generator md5 dumps fs discovered metadata metadata_keys
  | some n => (row_generator md5 dumps fs discovered metadata metadata_keys).take n

/-- Concrete digest function for evaluating the pipeline on test fixtures. -/
def md5W : List Nat → String :=
  fun bs => (bs.map (fun n => Char.ofNat (97 + n % 26))).asString

/-- Concrete filesystem fixture: three readable files, the third a
byte-duplicate of the first. -/
def fsW : String → Option (List Nat) := fun p =>
  if p = "root/001_a.mid" then some [1]
  else if p = "root/002_b.mid" then some [2, 3]
  else if p = "root/003_c.mid" then some [1]
  else none

/-- Concrete traversal fixture. -/
def filesW : List String := ["root/001_a.mid", "root/002_b.mid", "root/003_c.mid"]

/-- Concrete serializer fixture. -/
def dumpsW : Val → String := fun _ => "scores_json"

/-- Concrete record fixture whose nested metadata already contains an
`"audio_scores"` key, to exercise precedence of the synthetic attributes. -/
def recW : MetaRecord :=
  { metadata := [("title", Val.str "X"), ("audio_scores", Val.int 5)]
    audio_scores := Val.arr [Val.int 1] }

/-- Concrete metadata mapping fixture. -/
def mdW : List (String × MetaRecord) :=
  [("1", recW), ("2", { metadata := [("title", Val.str "Y")], audio_scores := Val.null })]

/-- Concrete store fixture for the aliasing model. -/
def heapW : Heap :=
  { mem := fun a => if a = 0 then [("title", Val.str "X")] else [], next := 1 }

/-- Concrete record-reference mapping living in `heapW`. -/
def mdRefW : List (String × RecordRef) :=
  [("1", { metaAddr := 0, audio_scores := Val.null })]

/-- Concrete existence predicate fixture for the fail-fast theorem. -/
def pathExistsW : String → Bool := fun _ => false

/-- Concrete directory predicate fixture for the fail-fast theorem. -/
def isDirectoryW : String → Bool := fun _ => true

/-! ### Dictionary lemmas -/

theorem dictGet_nil {α : Type} (k : String) : dictGet ([] : List (String × α)) k = none := rfl

theorem dictGet_cons {α : Type} (kv : String × α) (t : List (String × α)) (k : String) :
    dictGet (kv :: t) k = if (kv.1 == k) = true then some kv.2 else dictGet t k := by
  unfold dictGet
  by_cases h : (kv.1 == k) = true
  · rw [if_pos h, @List.find?_cons_of_pos _ (fun kv => kv.1 == k) kv t h]
    rfl
  · rw [if_neg h, @List.find?_cons_of_neg _ (fun kv => kv.1 == k) kv t h]

theorem find_map_overwrite {α : Type} (k : String) (v : α) (d : List (String × α))
    (hany : d.any (fun kv => kv.1 == k) = true) :
    dictGet (d.map (fun kv => if kv.1 == k then (k, v) else kv)) k = some v := by
  induction d with
  | nil => simp at hany
  | cons kv t ih =>
    rw [List.map_cons]
    by_cases hk : (kv.1 == k) = true
    · rw [if_pos hk, dictGet_cons]
      rw [if_pos (by simp)]
    · rw [if_neg hk, dictGet_cons, if_neg hk]
      have ht : t.any (fun kv => kv.1 == k) = true := by
        rcases List.any_eq_true.mp hany with ⟨x, hx, hpx⟩
        rcases List.mem_cons.mp hx with heq | hxt
        · exact absurd (heq ▸ hpx) hk
        · exact List.any_eq_true.mpr ⟨x, hxt, hpx⟩
      exact ih ht

theorem find_append_new {α : Type} (k : String) (v : α) (d : List (String × α))
    (hnone : d.any (fun kv => kv.1 == k) = false) :
    dictGet (d ++ [(k, v)]) k = some v := by
  induction d with
  | nil =>
    rw [List.nil_append, dictGet_cons, if_pos (by simp)]
  | cons kv t ih =>
    rw [List.any_cons, Bool.or_eq_false_iff] at hnone
    rw [List.cons_append, dictGet_cons, if_neg (by simp [hnone.1])]
    exact ih hnone.2

theorem dictGet_dictSet_self {α : Type} (d : List (String × α)) (k : String) (v : α) :
    dictGet (dictSet d k v) k = some v := by
  unfold dictSet
  by_cases hany : d.any (fun kv => kv.1 == k) = true
  · rw [if_pos hany]
    exact find_map_overwrite k v d hany
  · rw [if_neg hany]
    exact find_append_new k v d (Bool.eq_false_iff.mpr hany)

theorem find_map_overwrite_ne {α : Type} (k k2 : String) (v : α) (d : List (String × α))
    (hne : k2 ≠ k) :
    dictGet (d.map (fun kv => if kv.1 == k then (k, v) else kv)) k2 = dictGet d k2 := by
  induction d with
  | nil => rfl
  | cons kv t ih =>
    rw [List.map_cons]
    by_cases hk : (kv.1 == k) = true
    · rw [if_pos hk, dictGet_cons, dictGet_cons,
        if_neg (by simp [Ne.symm hne]), if_neg (by
          simp only [beq_iff_eq]
          intro h
          exact absurd (h.symm.trans (eq_of_beq hk)) hne)]
      exact ih
    · rw [if_neg hk, dictGet_cons, dictGet_cons]
      by_cases hk2 : (kv.1 == k2) = true
      · rw [if_pos hk2, if_pos hk2]
      · rw [if_neg hk2, if_neg hk2]
        exact ih

theorem find_append_ne {α : Type} (k k2 : String) (v : α) (d : List (String × α))
    (hne : k2 ≠ k) : dictGet (d ++ [(k, v)]) k2 = dictGet d k2 := by
  induction d with
  | nil =>
    rw [List.nil_append, dictGet_cons, if_neg (by simp [Ne.symm hne]), dictGet_nil]
  | cons kv t ih =>
    rw [List.cons_append, dictGet_cons, dictGet_cons]
    by_cases hk2 : (kv.1 == k2) = true
    · rw [if_pos hk2, if_pos hk2]
    · rw [if_neg hk2, if_neg hk2]
      exact ih

theorem dictGet_dictSet_ne {α : Type} (d : List (String × α)) (k k2 : String) (v : α)
    (hne : k2 ≠ k) : dictGet (dictSet d k v) k2 = dictGet d k2 := by
  unfold dictSet
  by_cases hany : d.any (fun kv => kv.1 == k) = true
  · rw [if_pos hany]
    exact find_map_overwrite_ne k k2 v d hne
  · rw [if_neg hany]
    exact find_append_ne k k2 v d hne

theorem mem_dictSet_eq_key {α : Type} (d : List (String × α)) (k : String) (v v2 : α)
    (hmem : (k, v2) ∈ dictSet d k v) : v2 = v := by
  unfold dictSet at hmem
  by_cases hany : d.any (fun kv => kv.1 == k) = true
  · rw [if_pos hany] at hmem
    obtain ⟨kv, hkv, heq⟩ := List.mem_map.mp hmem
    by_cases hk : (kv.1 == k) = true
    · rw [if_pos hk] at heq
      exact (Prod.mk.injEq _ _ _ _ ▸ heq).2.symm
    · rw [if_neg hk] at heq
      exact absurd (by rw [heq]; simp) hk
  · rw [if_neg hany] at hmem
    rcases List.mem_append.mp hmem with hin | hin
    · exact absurd (List.any_eq_true.mpr ⟨(k, v2), hin, by simp⟩) hany
    · exact (Prod.mk.injEq _ _ _ _ ▸ List.mem_singleton.mp hin).2

theorem mem_dictSet_ne_key {α : Type} (d : List (String × α)) (k k2 : String) (w : α)
    (v2 : α) (hne : k ≠ k2) (hmem : (k, v2) ∈ dictSet d k2 w) : (k, v2) ∈ d := by
  unfold dictSet at hmem
  by_cases hany : d.any (fun kv => kv.1 == k2) = true
  · rw [if_pos hany] at hmem
    obtain ⟨kv, hkv, heq⟩ := List.mem_map.mp hmem
    by_cases hk : (kv.1 == k2) = true
    · rw [if_pos hk] at heq
      exact absurd ((Prod.mk.injEq _ _ _ _ ▸ heq).1.symm) hne
    · rw [if_neg hk] at heq
      exact heq ▸ hkv
  · rw [if_neg hany] at hmem
    rcases List.mem_append.mp hmem with hin | hin
    · exact hin
    · exact absurd ((Prod.mk.injEq _ _ _ _ ▸ List.mem_singleton.mp hin).1) hne

/-! ### Deduplicator lemmas -/

theorem compute_hash_eq_none_iff (md5 : List Nat → String) (fs : String → Option (List Nat))
    (file_path : String) : compute_hash md5 fs file_path = none ↔ fs file_path = none := by
  unfold compute_hash
  cases fs file_path <;> simp

theorem prefixBytes_eq_none_iff (fs : String → Option (List Nat)) (file_path : String) :
    prefixBytes fs file_path = none ↔ fs file_path = none := by
  unfold prefixBytes
  cases fs file_path <;> simp

theorem compute_hash_of_prefixBytes (md5 : List Nat → String)
    (fs : String → Option (List Nat)) (file_path : String) (pre : List Nat)
    (h : prefixBytes fs file_path = some pre) :
    compute_hash md5 fs file_path = some (md5 pre) := by
  unfold prefixBytes at h
  cases hq : fs file_path with
  | none => rw [hq] at h; simp at h
  | some bs =>
    rw [hq] at h
    simp at h
    simp only [compute_hash, hq]
    rw [h]

theorem mem_usedAfter (hash : String → Option String) (l : List String)
    (used : List String) (a : String) :
    a ∈ usedAfter hash used l ↔ a ∈ used ∨ ∃ p ∈ l, hash p = some a := by
  induction l generalizing used with
  | nil => simp [usedAfter]
  | cons q rest ih =>
    rw [List.exists_mem_cons_iff (fun x => hash x = some a) q rest]
    cases hq : hash q with
    | none =>
      simp only [usedAfter, hq]
      rw [ih]
      constructor
      · rintro (h | h)
        · exact Or.inl h
        · exact Or.inr (Or.inr h)
      · rintro (h | h | h)
        · exact Or.inl h
        · exact absurd h (by simp)
        · exact Or.inr h
    | some hv =>
      simp only [usedAfter, hq]
      by_cases hmem : hv ∈ used
      · rw [if_pos hmem, ih]
        constructor
        · rintro (h | h)
          · exact Or.inl h
          · exact Or.inr (Or.inr h)
        · rintro (h | h | h)
          · exact Or.inl h
          · exact Or.inl ((Option.some_inj.mp h) ▸ hmem)
          · exact Or.inr h
      · rw [if_neg hmem, ih]
        simp only [List.mem_cons]
        constructor
        · rintro ((h | h) | h)
          · exact Or.inr (Or.inl (by rw [h]))
          · exact Or.inl h
          · exact Or.inr (Or.inr h)
        · rintro (h | h | h)
          · exact Or.inl (Or.inr h)
          · exact Or.inl (Or.inl (Option.some_inj.mp h).symm)
          · exact Or.inr h

theorem deduplicate_files_aux_append (hash : String → Option String)
    (l1 l2 : List String) (used : List String) :
    deduplicate_files_aux hash used (l1 ++ l2) =
      deduplicate_files_aux hash used l1 ++
        deduplicate_files_aux hash (usedAfter hash used l1) l2 := by
  induction l1 generalizing used with
  | nil => simp [deduplicate_files_aux, usedAfter]
  | cons q rest ih =>
    rw [List.cons_append]
    cases hq : hash q with
    | none =>
      simp only [deduplicate_files_aux, usedAfter, hq]
      exact ih used
    | some hv =>
      simp only [deduplicate_files_aux, usedAfter, hq]
      by_cases hmem : hv ∈ used
      · rw [if_pos hmem, if_pos hmem, if_pos hmem]
        exact ih used
      · rw [if_neg hmem, if_neg hmem, if_neg hmem, ih (hv :: used), List.cons_append]

theorem mem_deduplicate_files_aux_hash (hash : String → Option String) (l : List String)
    (used : List String) (p : String) (hp : p ∈ deduplicate_files_aux hash used l) :
    ∃ a, hash p = some a ∧ a ∉ used := by
  induction l generalizing used with
  | nil => simp [deduplicate_files_aux] at hp
  | cons q rest ih =>
    cases hq : hash q with
    | none =>
      simp only [deduplicate_files_aux, hq] at hp
      exact ih used hp
    | some hv =>
      simp only [deduplicate_files_aux, hq] at hp
      by_cases hmem : hv ∈ used
      · rw [if_pos hmem] at hp
        exact ih used hp
      · rw [if_neg hmem] at hp
        rcases List.mem_cons.mp hp with heq | htail
        · exact ⟨hv, heq ▸ hq, hmem⟩
        · obtain ⟨a, ha, hnot⟩ := ih (hv :: used) htail
          exact ⟨a, ha, fun hin => hnot (List.mem_cons_of_mem _ hin)⟩

theorem deduplicate_files_aux_pairwise (hash : String → Option String) (l : List String)
    (used : List String) :
    List.Pairwise (fun p q => hash p ≠ hash q) (deduplicate_files_aux hash used l) := by
  induction l generalizing used with
  | nil => simp [deduplicate_files_aux]
  | cons q rest ih =>
    cases hq : hash q with
    | none =>
      simp only [deduplicate_files_aux, hq]
      exact ih used
    | some hv =>
      simp only [deduplicate_files_aux, hq]
      by_cases hmem : hv ∈ used
      · rw [if_pos hmem]
        exact ih used
      · rw [if_neg hmem]
        refine List.Pairwise.cons ?_ (ih (hv :: used))
        intro b hb hcontra
        obtain ⟨a, hba, hnot⟩ := mem_deduplicate_files_aux_hash hash rest (hv :: used) b hb
        rw [hq, hba, Option.some_inj] at hcontra
        exact hnot (hcontra ▸ List.mem_cons_self _ _)

theorem mem_of_mem_deduplicate_files_aux (hash : String → Option String) (l : List String)
    (used : List String) (p : String) (hp : p ∈ deduplicate_files_aux hash used l) :
    p ∈ l := by
  induction l generalizing used with
  | nil => simp [deduplicate_files_aux] at hp
  | cons q rest ih =>
    cases hq : hash q with
    | none =>
      simp only [deduplicate_files_aux, hq] at hp
      exact List.mem_cons_of_mem _ (ih used hp)
    | some hv =>
      simp only [deduplicate_files_aux, hq] at hp
      by_cases hmem : hv ∈ used
      · rw [if_pos hmem] at hp
        exact List.mem_cons_of_mem _ (ih used hp)
      · rw [if_neg hmem] at hp
        rcases List.mem_cons.mp hp with heq | htail
        · exact heq ▸ List.mem_cons_self _ _
        · exact List.mem_cons_of_mem _ (ih (hv :: used) htail)

theorem length_le_one_of_const {α β : Type} (R : α → β) (c : β) (l : List α)
    (hpw : List.Pairwise (fun p q => R p ≠ R q) l) (hall : ∀ r ∈ l, R r = c) :
    l.length ≤ 1 := by
  cases l with
  | nil => simp
  | cons x t =>
    cases t with
    | nil => simp
    | cons y t2 =>
      exfalso
      have hxy := (List.pairwise_cons.mp hpw).1 y (List.mem_cons_self _ _)
      rw [hall x (List.mem_cons_self _ _),
        hall y (List.mem_cons_of_mem _ (List.mem_cons_self _ _))] at hxy
      exact hxy rfl

theorem first_wins_aux (md5 : List Nat → String) (fs : String → Option (List Nat))
    (l : List String) (used : List String) (p : String) (pre : List Nat)
    (hmem : p ∈ deduplicate_files_aux (compute_hash md5 fs) used l)
    (hpre : prefixBytes fs p = some pre)
    (hnot : md5 pre ∉ used) :
    (l.filter (fun q => prefixBytes fs q == some pre)).head? = some p := by
  induction l generalizing used with
  | nil => simp [deduplicate_files_aux] at hmem
  | cons q rest ih =>
    cases hq : compute_hash md5 fs q with
    | none =>
      simp only [deduplicate_files_aux, hq] at hmem
      have hqpre : prefixBytes fs q ≠ some pre := by
        rw [(prefixBytes_eq_none_iff fs q).mpr ((compute_hash_eq_none_iff md5 fs q).mp hq)]
        simp
      rw [List.filter_cons_of_neg (by simpa using hqpre)]
      exact ih used hmem hnot
    | some hv =>
      simp only [deduplicate_files_aux, hq] at hmem
      by_cases hvused : hv ∈ used
      · rw [if_pos hvused] at hmem
        have hqpre : prefixBytes fs q ≠ some pre := by
          intro hcq
          have h2 := compute_hash_of_prefixBytes md5 fs q pre hcq
          rw [hq] at h2
          exact hnot ((Option.some_inj.mp h2) ▸ hvused)
        rw [List.filter_cons_of_neg (by simpa using hqpre)]
        exact ih used hmem hnot
      · rw [if_neg hvused] at hmem
        rcases List.mem_cons.mp hmem with heq | htail
        · subst heq
          rw [List.filter_cons_of_pos (by simpa using hpre), List.head?_cons]
        · obtain ⟨a, hpa, hanot⟩ := mem_deduplicate_files_aux_hash _ rest (hv :: used) p htail
          have hpmd : compute_hash md5 fs p = some (md5 pre) :=
            compute_hash_of_prefixBytes md5 fs p pre hpre
          have haeq : a = md5 pre := Option.some_inj.mp (hpa.symm.trans hpmd)
          have hnot2 : md5 pre ∉ (hv :: used) := haeq ▸ hanot
          have hqpre : prefixBytes fs q ≠ some pre := by
            intro hcq
            have h2 := compute_hash_of_prefixBytes md5 fs q pre hcq
            rw [hq] at h2
            exact hnot2 (by
              rw [← Option.some_inj.mp h2]
              exact List.mem_cons_self hv used)
          rw [List.filter_cons_of_neg (by simpa using hqpre)]
          exact ih (hv :: used) htail hnot2

/-- C1: among all input paths whose files have byte-identical first-8192-byte
prefixes (hence equal fingerprints), `deduplicate_files` yields at most one
path, and any path it yields from such a group is the first path of the group
in input order; moreover every path whose fingerprint computation succeeds
with a digest different from every earlier path's digest is yielded. -/
theorem deduplicate_files_first_unique_wins (md5 : List Nat → String)
    (fs : String → Option (List Nat)) (files : List String) :
    (∀ pre : List Nat,
        ((deduplicate_files md5 fs files).filter
            (fun p => prefixBytes fs p == some pre)).length ≤ 1) ∧
    (∀ p ∈ deduplicate_files md5 fs files, ∀ pre : List Nat,
        prefixBytes fs p = some pre →
        (files.filter (fun q => prefixBytes fs q == some pre)).head? = some p) ∧
    (∀ l1 p l2, files = l1 ++ p :: l2 → ∀ dg, compute_hash md5 fs p = some dg →
        (∀ q ∈ l1, compute_hash md5 fs q ≠ some dg) →
        p ∈ deduplicate_files md5 fs files) := by
  refine ⟨?_, ?_, ?_⟩
  · intro pre
    apply length_le_one_of_const (compute_hash md5 fs) (some (md5 pre))
    · exact List.Pairwise.sublist (List.filter_sublist _)
        (deduplicate_files_aux_pairwise _ files [])
    · intro r hr
      have hpred := List.of_mem_filter hr
      exact compute_hash_of_prefixBytes md5 fs r pre (by simpa using hpred)
  · intro p hp pre hpre
    unfold deduplicate_files at hp
    exact first_wins_aux md5 fs files [] p pre hp hpre (by simp)
  · intro l1 p l2 hsplit dg hdg hprev
    subst hsplit
    unfold deduplicate_files
    rw [deduplicate_files_aux_append]
    refine List.mem_append_right _ ?_
    have hnotin : dg ∉ usedAfter (compute_hash md5 fs) [] l1 := by
      rw [mem_usedAfter]
      rintro (h | ⟨q, hq, hqh⟩)
      · simp at h
      · exact hprev q hq hqh
    simp only [deduplicate_files_aux, hdg]
    rw [if_neg hnotin]
    exact List.mem_cons_self _ _

/-- C1 witness: on the concrete fixture, the first file is yielded because its
fingerprint differs from that of every earlier path (there are none). -/
theorem deduplicate_files_first_unique_wins_app :
    "root/001_a.mid" ∈ deduplicate_files md5W fsW filesW :=
  (deduplicate_files_first_unique_wins md5W fsW filesW).2.2 []
    "root/001_a.mid" ["root/002_b.mid", "root/003_c.mid"] rfl (md5W [1]) rfl
    (by intro q hq; simp at hq)

/-- C6: when the file is readable, `compute_hash` returns the MD5 digest of
exactly the first `min CHUNK_SIZE size` bytes of its content; when it is not,
it returns the sentinel `none` (modelling the caught exception) instead of
aborting; consequently two readable files have equal fingerprints exactly
when the MD5 digests of their `CHUNK_SIZE`-byte prefixes agree. -/
theorem compute_hash_spec (md5 : List Nat → String) (fs : String → Option (List Nat)) :
    (∀ file_path bs, fs file_path = some bs →
        compute_hash md5 fs file_path = some (md5 (bs.take CHUNK_SIZE)) ∧
        (bs.take CHUNK_SIZE).length = min CHUNK_SIZE bs.length) ∧
    (∀ file_path, fs file_path = none → compute_hash md5 fs file_path = none) ∧
    (∀ p q bp bq, fs p = some bp → fs q = some bq →
        (compute_hash md5 fs p = compute_hash md5 fs q ↔
          md5 (bp.take CHUNK_SIZE) = md5 (bq.take CHUNK_SIZE))) := by
  refine ⟨?_, ?_, ?_⟩
  · intro file_path bs h
    exact ⟨by simp only [compute_hash, h], List.length_take CHUNK_SIZE bs⟩
  · intro file_path h
    simp only [compute_hash, h]
  · intro p q bp bq hp hq
    simp only [compute_hash, hp, hq, Option.some_inj]

/-- C6 witness: the fingerprint of a concrete readable file is the digest of
its (short) prefix. -/
theorem compute_hash_spec_app :
    compute_hash md5W fsW "root/001_a.mid" = some (md5W (List.take CHUNK_SIZE [1])) :=
  ((compute_hash_spec md5W fsW).1 "root/001_a.mid" [1] rfl).1

/-- C2: every row emitted by `row_generator` carries exactly the supplied
schema key list as its attribute keys — each schema key present (with the
joined record's value, `null` when the record lacks the key) and no other
key present — for every row of the run. -/
theorem row_generator_rectangular (md5 : List Nat → String) (dumps : Val → String)
    (fs : String → Option (List Nat)) (discovered : List String)
    (metadata : List (String × MetaRecord)) (metadata_keys : List String) :
    ∀ row ∈ row_generator md5 dumps fs discovered metadata metadata_keys,
      row.map Prod.fst = metadata_keys ∧
      ∃ song ∈ grab_metadata dumps fs metadata (deduplicate_files md5 fs discovered),
        row = buildRow metadata_keys song ∧
        ∀ k ∈ metadata_keys, (k, (dictGet song k).getD Val.null) ∈ row := by
  intro row hrow
  unfold row_generator at hrow
  obtain ⟨song, hsong, hbr⟩ := List.mem_map.mp hrow
  subst hbr
  refine ⟨?_, song, hsong, rfl, ?_⟩
  · unfold buildRow
    rw [List.map_map,
      show (Prod.fst ∘ fun k => (k, (dictGet song k).getD Val.null)) = id from rfl,
      List.map_id]
  · intro k hk
    exact List.mem_map.mpr ⟨k, hk, rfl⟩

/-- C2 witness: a concrete emitted row has exactly the schema keys. -/
theorem row_generator_rectangular_app :
    ([("title", Val.str "X")] : List (String × Val)).map Prod.fst = ["title"] :=
  (row_generator_rectangular md5W dumpsW fsW filesW mdW ["title"]
      [("title", Val.str "X")] (by
        have h : row_generator md5W dumpsW fsW filesW mdW ["title"] =
            [[("title", Val.str "X")], [("title", Val.str "Y")]] := rfl
        rw [h]
        simp)).1

theorem head_dropWhile_false {α : Type} (p : α → Bool) (l : List α) (c : α)
    (hc : (l.dropWhile p).head? = some c) : p c = false := by
  induction l with
  | nil => simp [List.dropWhile] at hc
  | cons a t ih =>
    rw [List.dropWhile_cons] at hc
    by_cases hpa : p a = true
    · rw [if_pos hpa] at hc
      exact ih hc
    · rw [if_neg hpa] at hc
      rw [List.head?_cons, Option.some_inj] at hc
      subst hc
      simpa using hpa

/-- C3: the record key is the basename segment before the first underscore
with leading zeros stripped (the key's characters are what remains of that
segment after removing a block of leading `'0'`s, and never start with
`'0'`); a path whose key is empty or absent from the metadata mapping
produces no row, and otherwise (with the file readable) produces exactly its
joined row. -/
theorem grab_metadata_key_filtering (dumps : Val → String)
    (fs : String → Option (List Nat)) (metadata : List (String × MetaRecord)) :
    (∀ file_path, deriveKey file_path = "" ∨ dictGet metadata (deriveKey file_path) = none →
        grabStep dumps fs metadata file_path = []) ∧
    (∀ file_path r midi_bytes, deriveKey file_path ≠ "" →
        dictGet metadata (deriveKey file_path) = some r →
        fs file_path = some midi_bytes →
        grabStep dumps fs metadata file_path = [joinRow dumps r midi_bytes]) ∧
    (∀ file_path, ∃ n, keySegment file_path =
        List.replicate n '0' ++ (deriveKey file_path).toList ∧
        ∀ c, (deriveKey file_path).toList.head? = some c → c ≠ '0') ∧
    (∀ files2, grab_metadata dumps fs metadata files2 =
        files2.flatMap (grabStep dumps fs metadata)) := by
  refine ⟨?_, ?_, ?_, ?_⟩
  · intro file_path h
    rcases h with hk | hk
    · simp [grabStep, hk]
    · by_cases hke : deriveKey file_path = ""
      · simp [grabStep, hke]
      · simp [grabStep, hke, hk]
  · intro file_path r midi_bytes hne hr hb
    simp [grabStep, hne, hr, hb]
  · intro file_path
    refine ⟨((keySegment file_path).takeWhile (fun c => c == '0')).length, ?_, ?_⟩
    · have h1 : (deriveKey file_path).toList =
          (keySegment file_path).dropWhile (fun c => c == '0') := rfl
      rw [h1]
      have h2 : (keySegment file_path).takeWhile (fun c => c == '0') =
          List.replicate ((keySegment file_path).takeWhile (fun c => c == '0')).length '0' := by
        apply List.eq_replicate_of_mem
        intro b hb
        have hb2 :=
          @List.mem_takeWhile_imp Char (fun c => c == '0') (keySegment file_path) b hb
        exact eq_of_beq hb2
      conv_lhs =>
        rw [← List.takeWhile_append_dropWhile (fun c => c == '0') (keySegment file_path), h2]
    · intro c hc
      have h1 : (deriveKey file_path).toList =
          (keySegment file_path).dropWhile (fun c => c == '0') := rfl
      rw [h1] at hc
      simpa using head_dropWhile_false (fun c => c == '0') (keySegment file_path) c hc
  · intro files2
    rfl

/-- C3 witness: a concrete path with basename `001_a.mid` yields key `"1"`,
which is present in the metadata mapping, so exactly its joined row is
produced. -/
theorem grab_metadata_key_filtering_app :
    grabStep dumpsW fsW mdW "root/001_a.mid" = [joinRow dumpsW recW [1]] :=
  (grab_metadata_key_filtering dumpsW fsW mdW).2.1 "root/001_a.mid" recW [1]
    (by decide) rfl rfl

theorem mem_foldl_insert_inner (l : List (String × Val)) (acc : List String) (k : String) :
    k ∈ l.foldl (fun acc2 kv => acc2.insert kv.1) acc ↔
      k ∈ acc ∨ ∃ kv ∈ l, kv.1 = k := by
  induction l generalizing acc with
  | nil => simp
  | cons kv t ih =>
    rw [List.foldl_cons, ih, List.exists_mem_cons_iff (fun x => x.1 = k) kv t,
      List.mem_insert_iff]
    constructor
    · rintro ((h | h) | h)
      · exact Or.inr (Or.inl h.symm)
      · exact Or.inl h
      · exact Or.inr (Or.inr h)
    · rintro (h | h | h)
      · exact Or.inl (Or.inr h)
      · exact Or.inl (Or.inl h.symm)
      · exact Or.inr h

theorem mem_foldl_insert_outer (metadata : List (String × MetaRecord))
    (acc : List String) (k : String) :
    k ∈ metadata.foldl
        (fun acc kr => kr.2.metadata.foldl (fun acc2 kv => acc2.insert kv.1) acc) acc ↔
      k ∈ acc ∨ ∃ kr ∈ metadata, ∃ kv ∈ kr.2.metadata, kv.1 = k := by
  induction metadata generalizing acc with
  | nil => simp
  | cons kr t ih =>
    rw [List.foldl_cons, ih,
      List.exists_mem_cons_iff (fun x => ∃ kv ∈ x.2.metadata, kv.1 = k) kr t,
      mem_foldl_insert_inner]
    exact or_assoc

/-- C4: a key belongs to the schema key set computed by `main` before any row
is emitted exactly when it is an attribute name of some record's nested
metadata — ranging over every record of the mapping, not only records matched
by surviving files — or is one of the two synthetic names `"audio_scores"`
and `"file"`; the set is a pure value of the metadata mapping alone, hence
fixed for the remainder of the run. -/
theorem schema_key_set_spec (metadata : List (String × MetaRecord)) (k : String) :
    k ∈ schemaKeysList metadata ↔
      (∃ kr ∈ metadata, ∃ kv ∈ kr.2.metadata, kv.1 = k) ∨
        k = "audio_scores" ∨ k = "file" := by
  unfold schemaKeysList
  rw [List.mem_insert_iff, List.mem_insert_iff, mem_foldl_insert_outer]
  simp only [List.not_mem_nil, false_or]
  constructor
  · rintro (h | h | h)
    · exact Or.inr (Or.inr h)
    · exact Or.inr (Or.inl h)
    · exact Or.inl h
  · rintro (h | h | h)
    · exact Or.inr (Or.inr h)
    · exact Or.inr (Or.inl h)
    · exact Or.inl h

/-- C5 counterexample: with the concrete fixture the Joiner produces two
rows; the source's `row_generator` emits both (it has no row-count limit
parameter), while the spec-modelled limited builder with limit 1 stops after
one row, so the source does not implement the claimed optional-limit
behavior. -/
theorem row_limit_missing_cex :
    (row_generator md5W dumpsW fsW filesW mdW ["title"]).length = 2 ∧
    (row_generator_with_limit (some 1) md5W dumpsW fsW filesW mdW ["title"]).length = 1 ∧
    row_generator md5W dumpsW fsW filesW mdW ["title"] ≠
      row_generator_with_limit (some 1) md5W dumpsW fsW filesW mdW ["title"] := by
  refine ⟨rfl, rfl, ?_⟩
  intro hcontra
  have h2 : (row_generator md5W dumpsW fsW filesW mdW ["title"]).length = 2 := rfl
  rw [hcontra] at h2
  have h1 : (row_generator_with_limit (some 1) md5W dumpsW fsW filesW mdW ["title"]).length = 1 := rfl
  rw [h2] at h1
  exact absurd h1 (by decide)

/-- C5 amended: the Table Builder accepts no row-count limit; `row_generator`
always consumes the Joiner's entire output and emits exactly one row per
joined record. -/
theorem row_generator_emits_all_rows (md5 : List Nat → String) (dumps : Val → String)
    (fs : String → Option (List Nat)) (discovered : List String)
    (metadata : List (String × MetaRecord)) (metadata_keys : List String) :
    (row_generator md5 dumps fs discovered metadata metadata_keys).length =
      (grab_metadata dumps fs metadata (deduplicate_files md5 fs discovered)).length := by
  unfold row_generator
  rw [List.length_map]

/-- C9: two invocations of the row-generating function over the same
discovered paths, the same filesystem content and the same metadata mapping
produce tables with the same row count and the same multiset of rows: the
embedded pipeline is a pure function of these inputs whose deduplication
state starts empty on every invocation, so both runs evaluate to the same
table. -/
theorem row_generator_two_runs_agree (md5 : List Nat → String) (dumps : Val → String)
    (fs : String → Option (List Nat)) (discovered : List String)
    (metadata : List (String × MetaRecord)) (metadata_keys : List String) :
    (row_generator md5 dumps fs discovered metadata metadata_keys).length =
      (row_generator md5 dumps fs discovered metadata metadata_keys).length ∧
    (↑(row_generator md5 dumps fs discovered metadata metadata_keys) :
        Multiset (List (String × Val))) =
      ↑(row_generator md5 dumps fs discovered metadata metadata_keys) :=
  ⟨rfl, rfl⟩

/-- C10: in every joined row the synthetic attributes win over same-named
nested-metadata attributes: the value stored under `"audio_scores"` is
always the serialized scoring data and the value stored under `"file"` is
always the raw file bytes — whatever the record's own nested metadata held
under those names — and no other value occurs in the row under either name. -/
theorem synthetic_attrs_take_precedence (dumps : Val → String) (r : MetaRecord)
    (midi_bytes : List Nat) :
    dictGet (joinRow dumps r midi_bytes) "audio_scores" =
      some (Val.str (dumps r.audio_scores)) ∧
    dictGet (joinRow dumps r midi_bytes) "file" = some (Val.bytes midi_bytes) ∧
    (∀ v, ("audio_scores", v) ∈ joinRow dumps r midi_bytes →
      v = Val.str (dumps r.audio_scores)) ∧
    (∀ v, ("file", v) ∈ joinRow dumps r midi_bytes → v = Val.bytes midi_bytes) := by
  refine ⟨?_, ?_, ?_, ?_⟩
  · unfold joinRow
    rw [dictGet_dictSet_ne _ _ _ _ (by decide)]
    exact dictGet_dictSet_self _ _ _
  · exact dictGet_dictSet_self _ _ _
  · intro v hv
    unfold joinRow at hv
    exact mem_dictSet_eq_key _ _ _ v
      (mem_dictSet_ne_key _ "audio_scores" "file" (Val.bytes midi_bytes) v (by decide) hv)
  · intro v hv
    exact mem_dictSet_eq_key _ _ _ v hv

/-- C10 witness: for the concrete record whose nested metadata already has an
`"audio_scores"` entry (`Val.int 5`), the value found in the joined row under
that key is the serialized scoring data, not the original entry. -/
theorem synthetic_attrs_take_precedence_app :
    Val.str "scores_json" = Val.str (dumpsW recW.audio_scores) :=
  (synthetic_attrs_take_precedence dumpsW recW [1]).2.2.1 (Val.str "scores_json")
    (by
      have h : joinRow dumpsW recW [1] =
          [("title", Val.str "X"), ("audio_scores", Val.str "scores_json"),
            ("file", Val.bytes [1])] := rfl
      rw [h]
      simp)

/-! ### Store (aliasing) lemmas for the join step -/

theorem joinAlloc_next (dumps : Val → String) (h : Heap) (r : RecordRef) (bs : List Nat) :
    (joinAlloc dumps h r bs).next = h.next + 1 := rfl

theorem joinAlloc_mem_old (dumps : Val → String) (h : Heap) (r : RecordRef) (bs : List Nat)
    (a : Nat) (ha : a ≠ h.next) : (joinAlloc dumps h r bs).mem a = h.mem a := by
  simp [joinAlloc, hset, halloc, ha]

theorem joinAlloc_mem_new (dumps : Val → String) (h : Heap) (r : RecordRef) (bs : List Nat) :
    (joinAlloc dumps h r bs).mem h.next =
      joinRow dumps (MetaRecord.mk (h.mem r.metaAddr) r.audio_scores) bs := by
  simp [joinAlloc, hset, halloc, joinRow]

theorem dictGet_map_derefRecord (h : Heap) (metadata : List (String × RecordRef))
    (k : String) :
    dictGet (metadata.map (derefRecord h)) k =
      (dictGet metadata k).map
        (fun r => MetaRecord.mk (h.mem r.metaAddr) r.audio_scores) := by
  induction metadata with
  | nil => rfl
  | cons kr t ih =>
    rw [List.map_cons,
      show derefRecord h kr =
        (kr.1, MetaRecord.mk (h.mem kr.2.metaAddr) kr.2.audio_scores) from rfl,
      dictGet_cons, dictGet_cons]
    by_cases hk : (kr.1 == k) = true
    · rw [if_pos hk, if_pos hk]
      rfl
    · rw [if_neg hk, if_neg hk]
      exact ih

theorem derefRecord_congr (h h2 : Heap) (metadata : List (String × RecordRef))
    (hms : ∀ kr ∈ metadata, h2.mem kr.2.metaAddr = h.mem kr.2.metaAddr) :
    metadata.map (derefRecord h2) = metadata.map (derefRecord h) := by
  apply List.map_congr_left
  intro kr hkr
  unfold derefRecord
  rw [hms kr hkr]

/-- C7: the join step never mutates the metadata mapping: running the
store-level `grab_metadata` leaves every previously allocated address — in
particular the nested metadata dictionary of every record of the mapping —
unchanged, only allocates fresh addresses, and the rows read back from the
final store are exactly the joined rows computed from the (unchanged) records
as read in the initial store. -/
theorem grab_metadata_preserves_metadata_store (dumps : Val → String)
    (fs : String → Option (List Nat)) (metadata : List (String × RecordRef))
    (files : List String) (h : Heap)
    (hvalid : ∀ kr ∈ metadata, kr.2.metaAddr < h.next) :
    h.next ≤ (grab_metadata_heap dumps fs metadata h files).1.next ∧
    (∀ a, a < h.next →
      (grab_metadata_heap dumps fs metadata h files).1.mem a = h.mem a) ∧
    (grab_metadata_heap dumps fs metadata h files).2.map
        (grab_metadata_heap dumps fs metadata h files).1.mem =
      grab_metadata dumps fs (metadata.map (derefRecord h)) files := by
  induction files generalizing h with
  | nil => exact ⟨Nat.le_refl _, fun a _ => rfl, rfl⟩
  | cons file_path rest ih =>
    have hpure : grab_metadata dumps fs (metadata.map (derefRecord h)) (file_path :: rest) =
        grabStep dumps fs (metadata.map (derefRecord h)) file_path ++
          grab_metadata dumps fs (metadata.map (derefRecord h)) rest :=
      List.flatMap_cons _ _ _
    by_cases hkey : deriveKey file_path = ""
    · have hG : grab_metadata_heap dumps fs metadata h (file_path :: rest) =
          grab_metadata_heap dumps fs metadata h rest := by
        simp only [grab_metadata_heap]
        rw [if_pos hkey]
      obtain ⟨ih1, ih2, ih3⟩ := ih h hvalid
      rw [hG, hpure, ih3]
      refine ⟨ih1, ih2, ?_⟩
      rw [show grabStep dumps fs (metadata.map (derefRecord h)) file_path = [] by
          simp [grabStep, hkey],
        List.nil_append]
    · cases hdg : dictGet metadata (deriveKey file_path) with
      | none =>
        have hG : grab_metadata_heap dumps fs metadata h (file_path :: rest) =
            grab_metadata_heap dumps fs metadata h rest := by
          simp only [grab_metadata_heap]
          rw [if_neg hkey, hdg]
        have hdg2 : dictGet (metadata.map (derefRecord h)) (deriveKey file_path) = none := by
          rw [dictGet_map_derefRecord, hdg]
          rfl
        obtain ⟨ih1, ih2, ih3⟩ := ih h hvalid
        rw [hG, hpure, ih3]
        refine ⟨ih1, ih2, ?_⟩
        rw [show grabStep dumps fs (metadata.map (derefRecord h)) file_path = [] by
            simp [grabStep, hkey, hdg2],
          List.nil_append]
      | some r =>
        cases hfs : fs file_path with
        | none =>
          have hG : grab_metadata_heap dumps fs metadata h (file_path :: rest) =
              grab_metadata_heap dumps fs metadata h rest := by
            simp only [grab_metadata_heap]
            rw [if_neg hkey, hdg, hfs]
          have hdg2 : dictGet (metadata.map (derefRecord h)) (deriveKey file_path) =
              some (MetaRecord.mk (h.mem r.metaAddr) r.audio_scores) := by
            rw [dictGet_map_derefRecord, hdg]
            rfl
          obtain ⟨ih1, ih2, ih3⟩ := ih h hvalid
          rw [hG, hpure, ih3]
          refine ⟨ih1, ih2, ?_⟩
          rw [show grabStep dumps fs (metadata.map (derefRecord h)) file_path = [] by
              simp [grabStep, hkey, hdg2, hfs],
            List.nil_append]
        | some midi_bytes =>
          have hG : grab_metadata_heap dumps fs metadata h (file_path :: rest) =
              ((grab_metadata_heap dumps fs metadata (joinAlloc dumps h r midi_bytes)
                  rest).1,
                h.next ::
                  (grab_metadata_heap dumps fs metadata (joinAlloc dumps h r midi_bytes)
                    rest).2) := by
            simp only [grab_metadata_heap]
            rw [if_neg hkey, hdg, hfs]
          have hvalid2 : ∀ kr ∈ metadata,
              kr.2.metaAddr < (joinAlloc dumps h r midi_bytes).next := by
            intro kr hkr
            rw [joinAlloc_next]
            exact Nat.lt_succ_of_lt (hvalid kr hkr)
          obtain ⟨ih1, ih2, ih3⟩ := ih (joinAlloc dumps h r midi_bytes) hvalid2
          have hnext2 : (joinAlloc dumps h r midi_bytes).next = h.next + 1 :=
            joinAlloc_next dumps h r midi_bytes
          have ih1b : h.next + 1 ≤
              (grab_metadata_heap dumps fs metadata (joinAlloc dumps h r midi_bytes)
                rest).1.next := by
            rw [← hnext2]
            exact ih1
          refine ⟨?_, ?_, ?_⟩
          · rw [hG]
            exact Nat.le_trans (Nat.le_succ _) ih1b
          · intro a ha
            rw [hG]
            dsimp only
            rw [ih2 a (by rw [hnext2]; exact Nat.lt_succ_of_lt ha),
              joinAlloc_mem_old dumps h r midi_bytes a (Nat.ne_of_lt ha)]
          · rw [hG, hpure]
            dsimp only
            have hdg2 : dictGet (metadata.map (derefRecord h)) (deriveKey file_path) =
                some (MetaRecord.mk (h.mem r.metaAddr) r.audio_scores) := by
              rw [dictGet_map_derefRecord, hdg]
              rfl
            have hstep : grabStep dumps fs (metadata.map (derefRecord h)) file_path =
                [joinRow dumps (MetaRecord.mk (h.mem r.metaAddr) r.audio_scores)
                  midi_bytes] := by
              simp [grabStep, hkey, hdg2, hfs]
            have hhead : (grab_metadata_heap dumps fs metadata
                  (joinAlloc dumps h r midi_bytes) rest).1.mem h.next =
                joinRow dumps (MetaRecord.mk (h.mem r.metaAddr) r.audio_scores)
                  midi_bytes := by
              rw [ih2 h.next (by rw [hnext2]; exact Nat.lt_succ_self _),
                joinAlloc_mem_new]
            have hms : ∀ kr ∈ metadata,
                (joinAlloc dumps h r midi_bytes).mem kr.2.metaAddr =
                  h.mem kr.2.metaAddr := by
              intro kr hkr
              exact joinAlloc_mem_old dumps h r midi_bytes _
                (Nat.ne_of_lt (hvalid kr hkr))
            rw [hstep, List.singleton_append, List.map_cons, hhead, ih3,
              derefRecord_congr h (joinAlloc dumps h r midi_bytes) metadata hms]

/-- C7 witness: on the concrete store, running the join over a file that
matches the record stored at address 0 leaves the record's nested metadata at
address 0 unchanged. -/
theorem grab_metadata_preserves_metadata_store_app :
    (grab_metadata_heap dumpsW fsW mdRefW heapW ["root/001_a.mid"]).1.mem 0 =
      [("title", Val.str "X")] := by
  have hv : ∀ kr ∈ mdRefW, kr.2.metaAddr < heapW.next := by
    intro kr hkr
    rw [List.mem_singleton.mp hkr]
    decide
  have hfr := (grab_metadata_preserves_metadata_store dumpsW fsW mdRefW
      ["root/001_a.mid"] heapW hv).2.1 0 (by decide)
  rw [hfr]
  rfl

/-- C8: when the base directory does not exist or is not a directory, `main`
fails with the corresponding not-found / invalid-input error, and the result
is independent of the discovered paths: the failure happens before any file
discovery output is consumed. -/
theorem main_fail_fast_invalid_root (pathExists isDirectory : String → Bool)
    (hf_token : Option String) (metadata_file : Option (List (String × MetaRecord)))
    (md5 : List Nat → String) (dumps : Val → String) (fs : String → Option (List Nat))
    (base_directory : String)
    (hbad : pathExists base_directory = false ∨ isDirectory base_directory = false) :
    ∀ discovered discovered2 : List String,
      main_run pathExists isDirectory hf_token metadata_file md5 dumps fs discovered
          base_directory =
        main_run pathExists isDirectory hf_token metadata_file md5 dumps fs discovered2
          base_directory ∧
      (main_run pathExists isDirectory hf_token metadata_file md5 dumps fs discovered
          base_directory = Except.error PipelineError.directoryNotFound ∨
        main_run pathExists isDirectory hf_token metadata_file md5 dumps fs discovered
          base_directory = Except.error PipelineError.notADirectory) := by
  intro d1 d2
  rcases hbad with hb | hb
  · unfold main_run
    rw [hb]
    simp
  · unfold main_run
    cases hex : pathExists base_directory with
    | false => simp
    | true =>
      rw [hb]
      simp

/-- C8 witness: with a never-existing root, the run fails identically for two
different traversals. -/
theorem main_fail_fast_invalid_root_app :
    main_run pathExistsW isDirectoryW none none md5W dumpsW fsW ["root/001_a.mid"]
        "root" =
      main_run pathExistsW isDirectoryW none none md5W dumpsW fsW [] "root" :=
  ((main_fail_fast_invalid_root pathExistsW isDirectoryW none none md5W dumpsW fsW
      "root" (Or.inl rfl)) ["root/001_a.mid"] []).1
